import Mathlib

/-!
Verification of the uptime computation engine of `src/uptime.py`
(`get_log_entry_time`, `get_period_before`, `calculate_uptime_rolling`,
`calculate_log_rolling_uptimes`, `calculate_disruptions`,
`generate_precompute`).

Modelling conventions:
* Python arbitrary-precision integers are `Int`; Python float ratios and
  timestamp deltas are `ℚ` (all arithmetic performed on them here is exact
  in binary floating point as well for the magnitudes involved).
* A Python exception is `Option.none` of the function's result type.
* The ambient wall clock `time.time()` is passed explicitly as a `now`
  parameter.
* A log line is modelled at two levels: the raw `String` level (used by the
  parsing functions) and the parsed `Line` level, a timestamp together with
  the classification that `calculate_uptime_rolling`'s suffix tests assign
  to the line.
-/

namespace Uptime

/-- Classification of one log line, following the branch structure of the
loop body of `calculate_uptime_rolling`: a line ending with `"ms"` is a
period marker carrying its parsed integer value, a line ending with
`"success"` is a successful probe, a line ending with `"FAILED"` is a failed
probe, and any other line is unrecognized. -/
inductive Entry where
  | marker (ms : Int)
  | success
  | failed
  | other
deriving DecidableEq

/-- A parsed log line: its bracketed unix timestamp and its classification. -/
structure Line where
  time : Int
  entry : Entry
deriving DecidableEq

/-- Default line used only for out-of-range list indexing; all statements
below keep indices in range. -/
def dfl : Line := ⟨0, Entry.other⟩

/-- Lines that contribute accounted time: success and failure probes. -/
def Entry.isSignal : Entry → Bool
  | .success => true
  | .failed => true
  | _ => false

/-- Result of `calculate_uptime_rolling`: the Python function returns either
`(False, None, None)` or `(True, ratio, period)`, where `period` is the
loop variable (an `int`, or `None` when the caller passed `None` and no
marker line reset it). -/
inductive CalcResult where
  | invalid
  | valid (ratio : ℚ) (per : Option Int)
deriving DecidableEq

/-- First component of the returned tuple. -/
def CalcResult.isValid : CalcResult → Bool
  | .invalid => false
  | .valid _ _ => true

/-- Second component of the returned tuple (`None` on the invalid branch). -/
def CalcResult.ratio? : CalcResult → Option ℚ
  | .invalid => none
  | .valid r _ => some r

/-- Third component of the returned tuple (`None` on the invalid branch). -/
def CalcResult.period? : CalcResult → Option Int
  | .invalid => none
  | .valid _ p => p

/-- The loop of `calculate_uptime_rolling`: walks the classified lines
maintaining `accounted_uptime`, `accounted_downtime` and the `period`
variable.  `period` is `Option Int` because the caller
(`calculate_log_rolling_uptimes`) can pass the `None` it received from a
previous invalid window; adding `None` to an accumulator raises in Python,
modelled by returning `none`. -/
def rollAux : List Entry → Int → Int → Option Int → Option (Int × Int × Option Int)
  | [], u, d, p => some (u, d, p)
  | .marker ms :: rest, u, d, _ => rollAux rest u d (some ms)
  | .success :: rest, u, d, some p => rollAux rest (u + p) d (some p)
  | .success :: _, _, _, none => none
  | .failed :: rest, u, d, some p => rollAux rest u (d + p) (some p)
  | .failed :: _, _, _, none => none
  | .other :: rest, u, d, p => rollAux rest u d p

/-- `calculate_uptime_rolling` on a list of classified entries: after the
walk, a zero total of accounted time yields `(False, None, None)`, otherwise
`(True, 100 * up / (up + down), period)`. -/
def calcEntries (es : List Entry) (period : Option Int) : Option CalcResult :=
  (rollAux es 0 0 period).map fun (u, d, p') =>
    if u + d = 0 then .invalid
    else .valid (100 * (u : ℚ) / ((u : ℚ) + (d : ℚ))) p'

/-- `calculate_uptime_rolling` over parsed lines (the classification of each
line is its `entry` field). -/
def calculate_uptime_rolling (sec : List Line) (period : Option Int := some 2000) :
    Option CalcResult :=
  calcEntries (sec.map Line.entry) period

/-- The backward scan of `get_period_before`: starting from `start_from`,
decrement `end_at` while `end_at > 0` and the gap from the anchor timestamp
`t` to `log[end_at]`'s timestamp stays below `period`; return the final
`end_at`. -/
def gpbAux (log : List Line) (t : Int) (period : Int) : Nat → Nat
  | 0 => 0
  | e + 1 =>
    if t - (log.getD (e + 1) dfl).time < period then gpbAux log t period e
    else e + 1

/-- `get_period_before`: the slice `log[end_at : start_from + 1]` where
`end_at` is the result of the backward scan anchored at
`log[start_from]`. -/
def get_period_before (log : List Line) (start_from : Nat) (period : Int) :
    List Line :=
  let e := gpbAux log (log.getD start_from dfl).time period start_from
  (log.drop e).take (start_from + 1 - e)

/-- One pass of `calculate_log_rolling_uptimes` over the positions in `is`
(the Python loop runs over all indices of `log`).  The carried state is the
`period` variable, which receives the third component of each
`calculate_uptime_rolling` result — including the `None` of an invalid
window.  A sample is appended only when the window was valid; its position
is the hour delta to `now` when `give_24hr_delta` is true, and the line's
absolute timestamp otherwise.  Lines more than 24 hours older than `now`
are skipped. -/
def genAux (log : List Line) (now : ℚ) (give_24hr_delta : Bool) :
    List Nat → Option Int → Option (List (ℚ × ℚ))
  | [], _ => some []
  | i :: is, per =>
    let line := log.getD i dfl
    let delta_hours := ((line.time : ℚ) - now) / 3600
    if delta_hours < -24 then genAux log now give_24hr_delta is per
    else
      match calculate_uptime_rolling (get_period_before log i 60) per with
      | none => none
      | some .invalid => genAux log now give_24hr_delta is none
      | some (.valid r p') =>
        (genAux log now give_24hr_delta is p').map
          (((if give_24hr_delta then delta_hours else (line.time : ℚ)), r) :: ·)

/-- `calculate_log_rolling_uptimes`: the rolling series generator, iterating
over every index of `log` with an initial period of 2000 ms. -/
def calculate_log_rolling_uptimes (log : List Line) (now : ℚ)
    (give_24hr_delta : Bool := true) : Option (List (ℚ × ℚ)) :=
  genAux log now give_24hr_delta (List.range log.length) (some 2000)

/-- The hysteresis loop of `calculate_disruptions` over the rolling samples:
state is `(start_time, in_disruption)`, initially `(0, False)`; a sample
below 80 while not in a disruption records its position and enters; a sample
above 90 while in a disruption emits `(start_time, position)` and leaves. -/
def disrAux : List (ℚ × ℚ) → ℚ → Bool → List (ℚ × ℚ)
  | [], _, _ => []
  | u :: us, start_time, in_disruption =>
    if !in_disruption && u.2 < 80 then disrAux us u.1 true
    else if in_disruption && u.2 > 90 then
      (start_time, u.1) :: disrAux us start_time false
    else disrAux us start_time in_disruption

/-- The disruption segmenter applied to an already computed sample list. -/
def disruptions_of (uptimes : List (ℚ × ℚ)) : List (ℚ × ℚ) :=
  disrAux uptimes 0 false

/-- `calculate_disruptions`: rolling samples with absolute timestamps
(`give_24hr_delta = False`), then the hysteresis loop. -/
def calculate_disruptions (log : List Line) (now : ℚ) :
    Option (List (ℚ × ℚ)) :=
  (calculate_log_rolling_uptimes log now false).map disruptions_of

/-- Python `x or 0.0` applied to the ratio slot of a
`calculate_uptime_rolling` result: `None` and `0.0` are falsy. -/
def pyOrZero : Option ℚ → ℚ
  | none => 0
  | some r => if r = 0 then 0 else r

/-- The computational core of `generate_precompute` on yesterday's log:
the stored `"daily-uptime"` value is `calculate_uptime_rolling(log)[1] or
0.0` (with the default 2000 ms period), and the stored `"disruptions"` list
is `calculate_disruptions(log)`. -/
def generate_precompute (log : List Line) (now : ℚ) :
    Option (ℚ × List (ℚ × ℚ)) :=
  match calculate_uptime_rolling log (some 2000), calculate_disruptions log now with
  | some r, some ds => some (pyOrZero r.ratio?, ds)
  | _, _ => none

/-! ### The raw string level

Python strings are modelled as lists of characters (`PyStr`), with
primitives mirroring the Python string methods used by `uptime.py`. -/

/-- A Python string. -/
abbrev PyStr := List Char

/-- Python whitespace as recognized by `str.split()` / `str.strip()`. -/
def isWS (c : Char) : Bool :=
  c == ' ' || c == '\t' || c == '\n' || c == '\r' || c == '\x0b' || c == '\x0c'

/-- Python `str.strip()` with no arguments. -/
def pyStrip (s : PyStr) : PyStr := ((s.dropWhile isWS).reverse.dropWhile isWS).reverse

/-- Python `str.endswith(suf)`. -/
def pyEndsWith (s suf : PyStr) : Bool := suf.isSuffixOf s

/-- Split a character list at every character satisfying `p`, keeping empty
tokens; `acc` is the (reversed) token being built. -/
def splitChars (p : Char → Bool) : List Char → List Char → List (List Char)
  | [], acc => [acc.reverse]
  | c :: cs, acc =>
    if p c then acc.reverse :: splitChars p cs [] else splitChars p cs (c :: acc)

/-- Python `str.split()` with no arguments: split on whitespace runs,
discarding empty tokens. -/
def pySplitWS (s : PyStr) : List PyStr := (splitChars isWS s []).filter (· ≠ [])

/-- Python `str.split(" ")`: split at every single space, keeping empty
tokens (the result is always nonempty). -/
def pySplitSpace (s : PyStr) : List PyStr := splitChars (· == ' ') s []

/-- Decimal digit-string value, `none` when empty or not all digits. -/
def digits? : List Char → Option Nat
  | [] => none
  | ds =>
    if ds.all Char.isDigit then
      some (ds.foldl (fun n c => 10 * n + (c.toNat - '0'.toNat)) 0)
    else none

/-- Python `int(s)` on the optionally signed decimal strings the log format
produces; `none` models the `ValueError` raised on anything else. -/
def pyInt? (s : PyStr) : Option Int :=
  match pyStrip s with
  | '-' :: ds => (digits? ds).map (fun n => -(n : Int))
  | '+' :: ds => (digits? ds).map (fun n => (n : Int))
  | ds => (digits? ds).map (fun n => (n : Int))

/-- `get_log_entry_time`: split the line on whitespace, take the first
segment, remove its first and last characters (the square brackets), and
parse the result as an integer.  `none` models the `IndexError` on an empty
line and the `ValueError` on a non-numeric segment. -/
def get_log_entry_time (line : PyStr) : Option Int :=
  match pySplitWS line with
  | [] => none
  | seg :: _ => pyInt? ((seg.drop 1).dropLast)

/-- The branch tests of `calculate_uptime_rolling`'s loop body applied to
one raw line: strip it, then test the suffixes `"ms"`, `"success"`,
`"FAILED"` in that order.  On the `"ms"` branch the last space-separated
token minus its final two characters is parsed with `int`, whose possible
`ValueError` is modelled by `none`. -/
def classify_line (line0 : PyStr) : Option Entry :=
  let line := pyStrip line0
  if pyEndsWith line ['m', 's'] then
    match pyInt? (((pySplitSpace line).getLastD []).dropLast.dropLast) with
    | some ms => some (.marker ms)
    | none => none
  else if pyEndsWith line ['s','u','c','c','e','s','s'] then some .success
  else if pyEndsWith line ['F','A','I','L','E','D'] then some .failed
  else some .other

/-- Classification of every line of a window; a line whose classification
raises makes the whole walk raise, as in Python. -/
def classifyAll : List PyStr → Option (List Entry)
  | [] => some []
  | l :: ls =>
    match classify_line l with
    | none => none
    | some e => (classifyAll ls).map (e :: ·)

/-- `calculate_uptime_rolling` on raw lines: classify every line, then run
the accounting walk. -/
def sCalculate_uptime_rolling (sec : List PyStr) (period : Option Int := some 2000) :
    Option CalcResult :=
  (classifyAll sec).bind fun es => calcEntries es period

/-- The backward scan of `get_period_before` on raw lines: each probed line
has its timestamp extracted with `get_log_entry_time`, whose failure aborts
the scan (a Python exception). -/
def sGpbAux (log : List PyStr) (t : Int) (period : Int) : Nat → Option Nat
  | 0 => some 0
  | e + 1 =>
    match get_log_entry_time (log.getD (e + 1) []) with
    | none => none
    | some te => if t - te < period then sGpbAux log t period e else some (e + 1)

/-- `get_period_before` on raw lines. -/
def sGet_period_before (log : List PyStr) (start_from : Nat) (period : Int) :
    Option (List PyStr) :=
  match get_log_entry_time (log.getD start_from []) with
  | none => none
  | some t => (sGpbAux log t period start_from).map fun e =>
      (log.drop e).take (start_from + 1 - e)

/-- One pass of `calculate_log_rolling_uptimes` on raw lines. -/
def sGenAux (log : List PyStr) (now : ℚ) (give_24hr_delta : Bool) :
    List Nat → Option Int → Option (List (ℚ × ℚ))
  | [], _ => some []
  | i :: is, per =>
    match get_log_entry_time (log.getD i []) with
    | none => none
    | some t =>
      let delta_hours := ((t : ℚ) - now) / 3600
      if delta_hours < -24 then sGenAux log now give_24hr_delta is per
      else
        match sGet_period_before log i 60 with
        | none => none
        | some window =>
          match sCalculate_uptime_rolling window per with
          | none => none
          | some .invalid => sGenAux log now give_24hr_delta is none
          | some (.valid r p') =>
            (sGenAux log now give_24hr_delta is p').map
              (((if give_24hr_delta then delta_hours else (t : ℚ)), r) :: ·)

/-- `calculate_log_rolling_uptimes` on raw lines. -/
def sCalculate_log_rolling_uptimes (log : List PyStr) (now : ℚ)
    (give_24hr_delta : Bool := true) : Option (List (ℚ × ℚ)) :=
  sGenAux log now give_24hr_delta (List.range log.length) (some 2000)

/-! ### Specification-side accounting

`effAcc` restates the spec's description of the weighting independently of
the implementation's fold: each Success (resp. Failure) entry contributes
the period in effect at that entry to the accounted uptime
(resp. downtime), a marker changes the period in effect from that point
on. -/

/-- `(accountedUptime, accountedDowntime)` of a window, given the period in
effect at its start. -/
def effAcc : List Entry → Int → Int × Int
  | [], _ => (0, 0)
  | .marker ms :: rest, _ => effAcc rest ms
  | .success :: rest, p => ((effAcc rest p).1 + p, (effAcc rest p).2)
  | .failed :: rest, p => ((effAcc rest p).1, (effAcc rest p).2 + p)
  | .other :: rest, p => effAcc rest p

/-- The period in effect after a window, given the period in effect at its
start. -/
def finalPeriod : List Entry → Int → Int
  | [], p => p
  | .marker ms :: rest, _ => finalPeriod rest ms
  | .success :: rest, p => finalPeriod rest p
  | .failed :: rest, p => finalPeriod rest p
  | .other :: rest, p => finalPeriod rest p

/-- Invariant carried by the generator's `period` variable across
iterations: a `Some` value is positive, and a `None` value was produced by
the immediately preceding index `k0`, whose window had no Success/Failure
lines, whose own line is a marker, and which was within the lookback. -/
def GoodPer (log : List Line) (now : ℚ) (k : Nat) (per : Option Int) : Prop :=
  (∀ p, per = some p → 0 < p) ∧
  (per = none → ∃ k0, k = k0 + 1 ∧ k0 < log.length ∧
    (∀ x ∈ (get_period_before log k0 60).map Line.entry, x.isSignal = false) ∧
    (∃ ms, (log.getD k0 dfl).entry = Entry.marker ms) ∧
    ¬((((log.getD k0 dfl).time : ℚ) - now) / 3600 < -24))

/-- Helper character-code facts used when evaluating parsed digits. -/
theorem toNat_digit_zero : '0'.toNat = 48 := rfl

theorem toNat_digit_one : '1'.toNat = 49 := rfl

/-! ### The accounting walk -/

/-- With an integer initial period the walk never raises: it computes
exactly the spec-side accounting and final period. -/
theorem rollAux_some_eq (es : List Entry) : ∀ (u d p : Int),
    rollAux es u d (some p) =
      some (u + (effAcc es p).1, d + (effAcc es p).2, some (finalPeriod es p)) := by
  induction es with
  | nil => intro u d p; simp [rollAux, effAcc, finalPeriod]
  | cons e rest ih =>
    intro u d p
    cases e with
    | marker ms => simp [rollAux, effAcc, finalPeriod, ih]
    | success => simp [rollAux, effAcc, finalPeriod, ih]; omega
    | failed => simp [rollAux, effAcc, finalPeriod, ih]; omega
    | other => simp [rollAux, effAcc, finalPeriod, ih]

/-- Positivity of the accounted amounts, and their vanishing exactly on
signal-free windows, under positive periods. -/
theorem effAcc_nonneg (es : List Entry) : ∀ p : Int, 0 < p →
    (∀ ms, Entry.marker ms ∈ es → 0 < ms) →
    0 ≤ (effAcc es p).1 ∧ 0 ≤ (effAcc es p).2 ∧
      ((effAcc es p).1 + (effAcc es p).2 = 0 ↔ ∀ e ∈ es, e.isSignal = false) := by
  induction es with
  | nil => intro p hp _; simp [effAcc, Entry.isSignal]
  | cons e rest ih =>
    intro p hp hm
    cases e with
    | marker ms =>
      have hms : 0 < ms := hm ms (by simp)
      have h := ih ms hms (fun x hx => hm x (by simp [hx]))
      simpa [effAcc, Entry.isSignal] using h
    | success =>
      obtain ⟨h1, h2, _⟩ := ih p hp (fun x hx => hm x (by simp [hx]))
      simp only [effAcc, Entry.isSignal]
      refine ⟨by omega, h2, ?_⟩
      simp only [List.mem_cons]
      constructor
      · intro h0; exfalso; omega
      · intro hall
        exact absurd (hall Entry.success (Or.inl rfl)) (by simp [Entry.isSignal])
    | failed =>
      obtain ⟨h1, h2, _⟩ := ih p hp (fun x hx => hm x (by simp [hx]))
      simp only [effAcc, Entry.isSignal]
      refine ⟨h1, by omega, ?_⟩
      simp only [List.mem_cons]
      constructor
      · intro h0; exfalso; omega
      · intro hall
        exact absurd (hall Entry.failed (Or.inl rfl)) (by simp [Entry.isSignal])
    | other =>
      have h := ih p hp (fun x hx => hm x (by simp [hx]))
      simpa [effAcc, Entry.isSignal] using h

/-- The ratio `100 u / (u + d)` lies in `[0, 100]` for nonnegative
accounted times with a positive total. -/
theorem ratio_bounds (u d : Int) (hu : 0 ≤ u) (hd : 0 ≤ d) (hsum : u + d ≠ 0) :
    0 ≤ 100 * (u : ℚ) / ((u : ℚ) + (d : ℚ)) ∧
      100 * (u : ℚ) / ((u : ℚ) + (d : ℚ)) ≤ 100 := by
  have hu' : (0 : ℚ) ≤ (u : ℚ) := by exact_mod_cast hu
  have hd' : (0 : ℚ) ≤ (d : ℚ) := by exact_mod_cast hd
  have hsum' : (0 : ℚ) < (u : ℚ) + (d : ℚ) := by
    have h : 0 < u + d := by omega
    exact_mod_cast h
  constructor
  · exact div_nonneg (by linarith) (le_of_lt hsum')
  · rw [div_le_iff₀ hsum']
    linarith

/-- `calculate_uptime_rolling` with an integer initial period, computed in
terms of the spec-side accounting. -/
theorem calculate_uptime_rolling_eq (sec : List Line) (p : Int) :
    calculate_uptime_rolling sec (some p) =
      some (if (effAcc (sec.map Line.entry) p).1 + (effAcc (sec.map Line.entry) p).2 = 0
        then CalcResult.invalid
        else CalcResult.valid
          (100 * ((effAcc (sec.map Line.entry) p).1 : ℚ) /
            (((effAcc (sec.map Line.entry) p).1 : ℚ) + ((effAcc (sec.map Line.entry) p).2 : ℚ)))
          (some (finalPeriod (sec.map Line.entry) p))) := by
  unfold calculate_uptime_rolling calcEntries
  rw [rollAux_some_eq]
  simp

/-- Carrying the per-line marker hypothesis through `Line.entry`. -/
theorem markers_map (sec : List Line)
    (hm : ∀ l ∈ sec, ∀ ms, l.entry = Entry.marker ms → 0 < ms) :
    ∀ ms, Entry.marker ms ∈ sec.map Line.entry → 0 < ms := by
  intro ms hms
  rw [List.mem_map] at hms
  obtain ⟨l, hl, he⟩ := hms
  exact hm l hl ms he

/-- C1 (amended): for every window and every positive initial period, if
all period markers in the window carry positive values then
`calculate_uptime_rolling` returns a result; it is invalid exactly when the
window has no Success/Failure line, and otherwise its ratio is
`100 * accountedUptime / (accountedUptime + accountedDowntime)` — each
Success (resp. Failure) line contributing the period in effect at that
line — and lies in `[0, 100]`. -/
theorem C1_weighted_uptime_valid_iff (sec : List Line) (p : Int) (hp : 0 < p)
    (hm : ∀ l ∈ sec, ∀ ms, l.entry = Entry.marker ms → 0 < ms) :
    ∃ r : CalcResult, calculate_uptime_rolling sec (some p) = some r ∧
      (r.isValid = false ↔ ∀ l ∈ sec, l.entry.isSignal = false) ∧
      (r.isValid = true →
        r.ratio? = some (100 * ((effAcc (sec.map Line.entry) p).1 : ℚ) /
          (((effAcc (sec.map Line.entry) p).1 : ℚ) +
            ((effAcc (sec.map Line.entry) p).2 : ℚ))) ∧
        ∀ q : ℚ, r.ratio? = some q → 0 ≤ q ∧ q ≤ 100) := by
  obtain ⟨h1, h2, h3⟩ := effAcc_nonneg (sec.map Line.entry) p hp (markers_map sec hm)
  have hsig : (∀ e ∈ sec.map Line.entry, e.isSignal = false) ↔
      (∀ l ∈ sec, l.entry.isSignal = false) := by
    constructor
    · intro h l hl
      exact h l.entry (List.mem_map_of_mem Line.entry hl)
    · intro h e he
      rw [List.mem_map] at he
      obtain ⟨l, hl, rfl⟩ := he
      exact h l hl
  rw [calculate_uptime_rolling_eq]
  by_cases h0 : (effAcc (sec.map Line.entry) p).1 + (effAcc (sec.map Line.entry) p).2 = 0
  · refine ⟨CalcResult.invalid, by simp [h0], ?_, ?_⟩
    · constructor
      · intro _
        exact hsig.mp (h3.mp h0)
      · intro _
        rfl
    · intro hv
      exact absurd hv (by simp [CalcResult.isValid])
  · refine ⟨CalcResult.valid
      (100 * ((effAcc (sec.map Line.entry) p).1 : ℚ) /
        (((effAcc (sec.map Line.entry) p).1 : ℚ) + ((effAcc (sec.map Line.entry) p).2 : ℚ)))
      (some (finalPeriod (sec.map Line.entry) p)), by simp [h0], ?_, ?_⟩
    · constructor
      · intro hf
        exact absurd hf (by simp [CalcResult.isValid])
      · intro hall
        exact absurd (h3.mpr (hsig.mpr hall)) h0
    · intro _
      refine ⟨rfl, ?_⟩
      intro q hq
      simp only [CalcResult.ratio?, Option.some.injEq] at hq
      obtain ⟨hb1, hb2⟩ := ratio_bounds _ _ h1 h2 h0
      rw [hq] at hb1 hb2
      exact ⟨hb1, hb2⟩

/-- Witness for C1 at a concrete window with one success and one failure at
the default 2000 ms period. -/
theorem C1_witness :
    ∃ r : CalcResult,
      calculate_uptime_rolling [⟨0, Entry.success⟩, ⟨2, Entry.failed⟩] (some 2000) = some r ∧
      (r.isValid = false ↔
        ∀ l ∈ [Line.mk 0 Entry.success, Line.mk 2 Entry.failed], l.entry.isSignal = false) ∧
      (r.isValid = true →
        r.ratio? = some (100 *
          ((effAcc ([Line.mk 0 Entry.success, Line.mk 2 Entry.failed].map Line.entry) 2000).1 : ℚ) /
          (((effAcc ([Line.mk 0 Entry.success, Line.mk 2 Entry.failed].map Line.entry) 2000).1 : ℚ) +
            ((effAcc ([Line.mk 0 Entry.success, Line.mk 2 Entry.failed].map Line.entry) 2000).2 : ℚ))) ∧
        ∀ q : ℚ, r.ratio? = some q → 0 ≤ q ∧ q ≤ 100) :=
  C1_weighted_uptime_valid_iff [⟨0, Entry.success⟩, ⟨2, Entry.failed⟩] 2000 (by norm_num)
    (by intro l hl ms hms; fin_cases hl <;> simp at hms)

/-- Counterexample to C1 as frozen: with initial period `0` a window
containing a Success line still comes back invalid, against the claimed
"valid exactly when a Success/Failure line is present" for *every* initial
period. -/
theorem C1_counterexample :
    calculate_uptime_rolling [⟨0, Entry.success⟩] (some 0) = some CalcResult.invalid ∧
    (Line.mk 0 Entry.success).entry.isSignal = true := by
  constructor
  · decide
  · rfl

/-- C4 (the code as written): on an all-marker window the third returned
component is `None`, not the period in effect — evaluated at a
single-marker window with initial period 2000, where the claim expects the
integer 500. -/
theorem C4_invalid_returns_none_period :
    (calculate_uptime_rolling [⟨0, Entry.marker 500⟩] (some 2000)).map CalcResult.period? =
      some none ∧
    finalPeriod ([Line.mk 0 (Entry.marker 500)].map Line.entry) 2000 = 500 := by
  constructor
  · decide
  · rfl

/-- C6: a marker mid-window re-weights only the entries after it
(`[Success, "500ms", Success]` gives 100, `[Success, "500ms", Failure]`
gives 80), and a marker as the very first entry overrides the
caller-supplied initial period before anything else is weighted. -/
theorem C6_marker_reweighting :
    (calculate_uptime_rolling [⟨1000, Entry.success⟩, ⟨1002, Entry.marker 500⟩,
        ⟨1004, Entry.success⟩] (some 2000)).map CalcResult.ratio? = some (some 100) ∧
    (calculate_uptime_rolling [⟨1000, Entry.success⟩, ⟨1002, Entry.marker 500⟩,
        ⟨1004, Entry.failed⟩] (some 2000)).map CalcResult.ratio? = some (some 80) ∧
    ∀ (t ms : Int) (rest : List Line) (p : Option Int),
      calculate_uptime_rolling (⟨t, Entry.marker ms⟩ :: rest) p =
        calculate_uptime_rolling rest (some ms) := by
  refine ⟨?_, ?_, ?_⟩
  · norm_num [calculate_uptime_rolling, calcEntries, rollAux, CalcResult.ratio?]
  · norm_num [calculate_uptime_rolling, calcEntries, rollAux, CalcResult.ratio?]
  · intro t ms rest p
    rfl

/-- C7 (the code as written): `generate_precompute` stores the raw
percentage returned by `calculate_uptime_rolling` — here `100`, not the
fraction `1` the claim requires — for a one-line all-success day log. -/
theorem C7_precompute_stores_percent :
    generate_precompute [⟨1000, Entry.success⟩] 1000 = some (100, []) ∧ ((100 : ℚ) ≠ 1) := by
  constructor
  · norm_num [generate_precompute, calculate_uptime_rolling, calcEntries, rollAux, pyOrZero,
      calculate_disruptions, calculate_log_rolling_uptimes, genAux, get_period_before, gpbAux,
      List.range_succ, disruptions_of, disrAux, CalcResult.ratio?]
  · norm_num

/-! ### The backward window scan -/

/-- The scan never moves forward. -/
theorem gpbAux_le (log : List Line) (t period : Int) :
    ∀ n, gpbAux log t period n ≤ n := by
  intro n
  induction n with
  | zero => simp [gpbAux]
  | succ e ih =>
    simp only [gpbAux]
    split
    · exact le_trans ih (Nat.le_succ e)
    · exact le_refl _

/-- Every index strictly inside the returned window is within the span. -/
theorem gpbAux_in_span (log : List Line) (t period : Int) :
    ∀ n j, gpbAux log t period n < j → j ≤ n →
      t - (log.getD j dfl).time < period := by
  intro n
  induction n with
  | zero => intro j h1 h2; omega
  | succ e ih =>
    intro j h1 h2
    by_cases hc : t - (log.getD (e + 1) dfl).time < period
    · rw [gpbAux, if_pos hc] at h1
      rcases Nat.lt_succ_iff_lt_or_eq.mp (Nat.lt_succ_of_le h2) with h | h
      · exact ih j h1 (by omega)
      · rcases Nat.eq_or_lt_of_le h2 with rfl | h'
        · exact hc
        · exact ih j h1 (by omega)
    · rw [gpbAux, if_neg hc] at h1
      omega

/-- The scan stops either at the head of the list or at an index out of
span. -/
theorem gpbAux_boundary (log : List Line) (t period : Int) :
    ∀ n, gpbAux log t period n = 0 ∨
      period ≤ t - (log.getD (gpbAux log t period n) dfl).time := by
  intro n
  induction n with
  | zero => left; rfl
  | succ e ih =>
    by_cases hc : t - (log.getD (e + 1) dfl).time < period
    · rw [gpbAux, if_pos hc]
      exact ih
    · rw [gpbAux, if_neg hc]
      right
      omega

/-- At a positive index the scan always steps at least once when the span
is positive (the anchor itself has gap zero). -/
theorem gpbAux_succ_le (log : List Line) (period : Int) (hp : 0 < period) (i : Nat) :
    gpbAux log (log.getD (i + 1) dfl).time period (i + 1) ≤ i := by
  rw [gpbAux, if_pos (by omega)]
  exact gpbAux_le log _ period i

/-- The last element of the slice `log[e : i+1]` is `log[i]`. -/
theorem slice_getLast (log : List Line) (e i : Nat) (he : e ≤ i) (hi : i < log.length) :
    ((log.drop e).take (i + 1 - e)).getLast? = some (log.getD i dfl) := by
  have hlen : ((log.drop e).take (i + 1 - e)).length = i + 1 - e := by
    rw [List.length_take, List.length_drop]
    omega
  rw [List.getLast?_eq_getElem?, hlen]
  have h1 : i + 1 - e - 1 = i - e := by omega
  rw [h1, List.getElem?_take_of_lt (by omega), List.getElem?_drop]
  have h2 : e + (i - e) = i := by omega
  rw [h2, List.getElem?_eq_getElem hi, List.getD_eq_getElem log dfl hi]

/-- C2 (amended): `get_period_before` returns a contiguous run
`log[e : index+1]` ending at and including the anchor; every included
record except possibly the earliest is within `spanSeconds` of the anchor,
and the earliest one is either the first record of the log or the unique
included record whose gap reaches the span (the scan includes one record
past the boundary); for `index = 0` it returns the single-element
window. -/
theorem C2_window_before (log : List Line) (start_from : Nat) (period : Int)
    (h : start_from < log.length) :
    ∃ e, e ≤ start_from ∧
      get_period_before log start_from period = (log.drop e).take (start_from + 1 - e) ∧
      (get_period_before log start_from period).getLast? = some (log.getD start_from dfl) ∧
      (∀ j, e < j → j ≤ start_from →
        (log.getD start_from dfl).time - (log.getD j dfl).time < period) ∧
      (e = 0 ∨ period ≤ (log.getD start_from dfl).time - (log.getD e dfl).time) ∧
      (start_from = 0 → get_period_before log start_from period = [log.getD 0 dfl]) := by
  refine ⟨gpbAux log (log.getD start_from dfl).time period start_from,
    gpbAux_le log _ period start_from, rfl, ?_, ?_, ?_, ?_⟩
  · exact slice_getLast log _ start_from (gpbAux_le log _ period start_from) h
  · exact fun j h1 h2 => gpbAux_in_span log _ period start_from j h1 h2
  · exact gpbAux_boundary log _ period start_from
  · intro h0
    subst h0
    cases log with
    | nil => simp at h
    | cons a l => rfl

/-- Witness for C2 on a two-line log whose gap exceeds the span. -/
theorem C2_witness :
    ∃ e, e ≤ 1 ∧
      get_period_before [⟨0, Entry.success⟩, ⟨100, Entry.success⟩] 1 60 =
        (([⟨0, Entry.success⟩, ⟨100, Entry.success⟩] : List Line).drop e).take (1 + 1 - e) ∧
      (get_period_before [⟨0, Entry.success⟩, ⟨100, Entry.success⟩] 1 60).getLast? =
        some (([⟨0, Entry.success⟩, ⟨100, Entry.success⟩] : List Line).getD 1 dfl) ∧
      (∀ j, e < j → j ≤ 1 →
        (([⟨0, Entry.success⟩, ⟨100, Entry.success⟩] : List Line).getD 1 dfl).time -
          (([⟨0, Entry.success⟩, ⟨100, Entry.success⟩] : List Line).getD j dfl).time < 60) ∧
      (e = 0 ∨ (60 : Int) ≤
        (([⟨0, Entry.success⟩, ⟨100, Entry.success⟩] : List Line).getD 1 dfl).time -
          (([⟨0, Entry.success⟩, ⟨100, Entry.success⟩] : List Line).getD e dfl).time) ∧
      ((1 : Nat) = 0 → get_period_before [⟨0, Entry.success⟩, ⟨100, Entry.success⟩] 1 60 =
        [([⟨0, Entry.success⟩, ⟨100, Entry.success⟩] : List Line).getD 0 dfl]) :=
  C2_window_before [⟨0, Entry.success⟩, ⟨100, Entry.success⟩] 1 60 (by norm_num)

/-- Counterexample to C2 as frozen: at index 1 with span 60 the returned
window contains the record at time 0, whose gap to the anchor (100) is not
below the span — the claimed strict span bound fails. -/
theorem C2_counterexample :
    get_period_before [⟨0, Entry.success⟩, ⟨100, Entry.success⟩] 1 60 =
      [⟨0, Entry.success⟩, ⟨100, Entry.success⟩] ∧
    ¬((100 : Int) - 0 < 60) := by
  constructor
  · decide
  · decide

/-! ### The rolling series generator -/

/-- Folding an index function over `List.range` is mapping over the list
itself. -/
theorem range_map_getD {α : Type} (log : List Line) (f : Line → α) :
    (List.range log.length).map (fun i => f (log.getD i dfl)) = log.map f := by
  induction log with
  | nil => rfl
  | cons a l ih =>
    show (List.range (l.length + 1)).map _ = _
    rw [List.range_succ_eq_map, List.map_cons, List.map_map]
    have h1 : ((fun i => f ((a :: l).getD i dfl)) ∘ Nat.succ) = (fun i => f (l.getD i dfl)) := by
      funext i
      rfl
    rw [h1, ih]
    rfl

/-- Every sample emitted by the generator pass (absolute-timestamp mode) is
positioned at the timestamp of one of the visited lines, and that line is
within the 24-hour lookback. -/
theorem genAux_anchors (log : List Line) (now : ℚ) :
    ∀ (is : List Nat) (per : Option Int) (samples : List (ℚ × ℚ)),
      genAux log now false is per = some samples →
      ∀ s ∈ samples, ∃ i ∈ is, s.1 = ((log.getD i dfl).time : ℚ) ∧
        ¬((((log.getD i dfl).time : ℚ) - now) / 3600 < -24) := by
  intro is
  induction is with
  | nil =>
    intro per samples h s hs
    simp only [genAux, Option.some.injEq] at h
    subst h
    simp at hs
  | cons i tl ih =>
    intro per samples h s hs
    simp only [genAux] at h
    by_cases hskip : (((log.getD i dfl).time : ℚ) - now) / 3600 < -24
    · rw [if_pos hskip] at h
      obtain ⟨j, hj, hs'⟩ := ih per samples h s hs
      exact ⟨j, List.mem_cons_of_mem i hj, hs'⟩
    · rw [if_neg hskip] at h
      rcases hc : calculate_uptime_rolling (get_period_before log i 60) per with _ | r
      · rw [hc] at h
        exact absurd h (by simp)
      · rw [hc] at h
        cases r with
        | invalid =>
          obtain ⟨j, hj, hs'⟩ := ih none samples h s hs
          exact ⟨j, List.mem_cons_of_mem i hj, hs'⟩
        | valid r p' =>
          simp only [Option.map_eq_some'] at h
          obtain ⟨rest, hrest, hsamp⟩ := h
          subst hsamp
          rcases List.mem_cons.mp hs with rfl | hs'
          · exact ⟨i, List.mem_cons_self i tl, rfl, hskip⟩
          · obtain ⟨j, hj, hs''⟩ := ih p' rest hrest s hs'
            exact ⟨j, List.mem_cons_of_mem i hj, hs''⟩

/-- The emitted positions (absolute-timestamp mode) form a subsequence of
the visited lines' timestamps. -/
theorem genAux_sublist (log : List Line) (now : ℚ) :
    ∀ (is : List Nat) (per : Option Int) (samples : List (ℚ × ℚ)),
      genAux log now false is per = some samples →
      List.Sublist (samples.map Prod.fst) (is.map (fun i => ((log.getD i dfl).time : ℚ))) := by
  intro is
  induction is with
  | nil =>
    intro per samples h
    simp only [genAux, Option.some.injEq] at h
    subst h
    simp
  | cons i tl ih =>
    intro per samples h
    simp only [genAux] at h
    by_cases hskip : (((log.getD i dfl).time : ℚ) - now) / 3600 < -24
    · rw [if_pos hskip] at h
      exact List.Sublist.cons _ (ih per samples h)
    · rw [if_neg hskip] at h
      rcases hc : calculate_uptime_rolling (get_period_before log i 60) per with _ | r
      · rw [hc] at h
        exact absurd h (by simp)
      · rw [hc] at h
        cases r with
        | invalid => exact List.Sublist.cons _ (ih none samples h)
        | valid r p' =>
          simp only [Option.map_eq_some'] at h
          obtain ⟨rest, hrest, hsamp⟩ := h
          subst hsamp
          simp only [List.map_cons]
          exact List.Sublist.cons₂ _ (ih p' rest hrest)

/-- C10: for a log with non-decreasing timestamps, the absolute-timestamp
rolling series is emitted in input order — its positions are a subsequence
of the log's timestamps — and hence its positions are non-decreasing. -/
theorem C10_rolling_positions_sorted (log : List Line) (now : ℚ) (samples : List (ℚ × ℚ))
    (hm : List.Pairwise (fun a b : Line => a.time ≤ b.time) log)
    (h : calculate_log_rolling_uptimes log now false = some samples) :
    List.Sublist (samples.map Prod.fst) (log.map (fun l => (l.time : ℚ))) ∧
    List.Pairwise (fun a b : ℚ × ℚ => a.1 ≤ b.1) samples := by
  have hsub := genAux_sublist log now (List.range log.length) (some 2000) samples h
  rw [range_map_getD log (fun l => (l.time : ℚ))] at hsub
  have hmq : List.Pairwise (fun a b : ℚ => a ≤ b) (log.map (fun l => (l.time : ℚ))) := by
    rw [List.pairwise_map]
    exact hm.imp (fun hab => by exact_mod_cast hab)
  have hps : List.Pairwise (fun a b : ℚ => a ≤ b) (samples.map Prod.fst) :=
    hmq.sublist hsub
  rw [List.pairwise_map] at hps
  exact ⟨hsub, hps⟩

/-- Witness for C10 on a concrete two-line log. -/
theorem C10_witness :
    List.Sublist ([((1000 : ℚ), (100 : ℚ)), (1001, 100)].map Prod.fst)
      (([⟨1000, Entry.success⟩, ⟨1001, Entry.marker 500⟩] : List Line).map
        (fun l => (l.time : ℚ))) ∧
    List.Pairwise (fun a b : ℚ × ℚ => a.1 ≤ b.1)
      [((1000 : ℚ), (100 : ℚ)), (1001, 100)] :=
  C10_rolling_positions_sorted [⟨1000, Entry.success⟩, ⟨1001, Entry.marker 500⟩] 1000
    [(1000, 100), (1001, 100)]
    (by decide)
    (by norm_num [calculate_log_rolling_uptimes, genAux, calculate_uptime_rolling, calcEntries,
      rollAux, get_period_before, gpbAux, List.range_succ])

/-- C5 (amended): the marker-skip half of the claim fails on the code (see
the counterexample); its lookback half holds: every emitted sample of the
absolute-timestamp rolling series is positioned at the timestamp of some
log line whose age is within the 24-hour lookback, so lines older than the
horizon are skipped as anchors — no emitted sample is anchored at one. -/
theorem C5_sample_anchors (log : List Line) (now : ℚ) (samples : List (ℚ × ℚ))
    (h : calculate_log_rolling_uptimes log now false = some samples) :
    ∀ s ∈ samples, ∃ i, i < log.length ∧ s.1 = ((log.getD i dfl).time : ℚ) ∧
      ¬((((log.getD i dfl).time : ℚ) - now) / 3600 < -24) := by
  intro s hs
  obtain ⟨i, hi, h1, h2⟩ :=
    genAux_anchors log now (List.range log.length) (some 2000) samples h s hs
  exact ⟨i, List.mem_range.mp hi, h1, h2⟩

/-- Witness for C5 on a concrete two-line log, at the sample anchored at
the marker line. -/
theorem C5_witness :
    ∃ i, i < ([⟨1000, Entry.success⟩, ⟨1001, Entry.marker 500⟩] : List Line).length ∧
      ((1001 : ℚ), (100 : ℚ)).1 =
        ((([⟨1000, Entry.success⟩, ⟨1001, Entry.marker 500⟩] : List Line).getD i dfl).time : ℚ) ∧
      ¬((((([⟨1000, Entry.success⟩, ⟨1001, Entry.marker 500⟩] : List Line).getD i dfl).time : ℚ) -
        1000) / 3600 < -24) :=
  C5_sample_anchors [⟨1000, Entry.success⟩, ⟨1001, Entry.marker 500⟩] 1000
    [(1000, 100), (1001, 100)]
    (by norm_num [calculate_log_rolling_uptimes, genAux, calculate_uptime_rolling, calcEntries,
      rollAux, get_period_before, gpbAux, List.range_succ])
    ((1001 : ℚ), (100 : ℚ)) (by simp)

/-- Counterexample to C5 as frozen: the log
`[Success@1000, "500ms" marker@1001]` produces a sample positioned at
`1001` — the timestamp of a period-marker line, which the claim says can
never anchor a sample. -/
theorem C5_counterexample :
    calculate_log_rolling_uptimes [⟨1000, Entry.success⟩, ⟨1001, Entry.marker 500⟩] 1000 false =
      some [(1000, 100), (1001, 100)] ∧
    ((1001 : ℚ), (100 : ℚ)) ∈ [((1000 : ℚ), (100 : ℚ)), (1001, 100)] ∧
    (Line.mk 1001 (Entry.marker 500)).entry = Entry.marker 500 := by
  refine ⟨?_, by simp, rfl⟩
  norm_num [calculate_log_rolling_uptimes, genAux, calculate_uptime_rolling, calcEntries,
    rollAux, get_period_before, gpbAux, List.range_succ]

/-! ### The disruption segmenter -/

/-- From the recovered state, samples that never drop below 80 produce
nothing. -/
theorem disrAux_above90 : ∀ (us : List (ℚ × ℚ)) (st : ℚ),
    (∀ u ∈ us, (90 : ℚ) < u.2) → disrAux us st false = [] := by
  intro us
  induction us with
  | nil => intro st _; rfl
  | cons u tl ih =>
    intro st h
    have h1 : ¬(u.2 < 80) := by
      have := h u (by simp)
      linarith
    simp only [disrAux, Bool.not_false, Bool.true_and, Bool.false_and,
      decide_eq_true_eq, if_neg h1, if_false]
    exact ih st (fun x hx => h x (by simp [hx]))

/-- While in a disruption, a run of sub-80 samples keeps the state, and the
first above-90 sample emits the pending interval. -/
theorem disrAux_dip : ∀ (p' : List (ℚ × ℚ)) (y : ℚ × ℚ) (q' : List (ℚ × ℚ)) (st : ℚ),
    (∀ u ∈ p', u.2 < (80 : ℚ)) → (90 : ℚ) < y.2 →
    disrAux (p' ++ y :: q') st true = (st, y.1) :: disrAux q' st false := by
  intro p'
  induction p' with
  | nil =>
    intro y q' st _ hy
    simp only [List.nil_append, disrAux, Bool.not_true, Bool.false_and, Bool.true_and,
      decide_eq_true_eq, if_neg (by simp : ¬(False ∧ _)), gt_iff_lt]
    rw [if_neg (by simp), if_pos (by simpa using hy)]
  | cons u tl ih =>
    intro y q' st h hy
    have h1 : u.2 < 80 := h u (by simp)
    have h2 : ¬((90 : ℚ) < u.2) := by linarith
    simp only [List.cons_append, disrAux, Bool.not_true, Bool.false_and, Bool.true_and,
      decide_eq_true_eq]
    rw [if_neg (by simp), if_neg (by simpa using h2)]
    exact ih y q' st (fun x hx => h x (by simp [hx])) hy

/-- Every emitted interval is closed by an above-90 sample of the input. -/
theorem disrAux_closed : ∀ (us : List (ℚ × ℚ)) (st : ℚ) (inD : Bool),
    ∀ d ∈ disrAux us st inD, ∃ u ∈ us, (90 : ℚ) < u.2 ∧ d.2 = u.1 := by
  intro us
  induction us with
  | nil => intro st inD d hd; simp [disrAux] at hd
  | cons u tl ih =>
    intro st inD d hd
    cases inD with
    | false =>
      by_cases h80 : u.2 < (80 : ℚ)
      · simp only [disrAux, Bool.not_false, Bool.true_and, decide_eq_true_eq,
          if_pos h80] at hd
        obtain ⟨v, hv, h2⟩ := ih u.1 true d hd
        exact ⟨v, by simp [hv], h2⟩
      · simp only [disrAux, Bool.not_false, Bool.true_and, Bool.false_and,
          decide_eq_true_eq, if_neg h80, if_false] at hd
        obtain ⟨v, hv, h2⟩ := ih st false d hd
        exact ⟨v, by simp [hv], h2⟩
    | true =>
      by_cases h90 : (90 : ℚ) < u.2
      · simp only [disrAux, Bool.not_true, Bool.false_and, Bool.true_and,
          decide_eq_true_eq, gt_iff_lt, if_neg (by simp : ¬(False ∧ _))] at hd
        rw [if_neg (by simp), if_pos (by simpa using h90)] at hd
        rcases List.mem_cons.mp hd with rfl | hd'
        · exact ⟨u, by simp, h90, rfl⟩
        · obtain ⟨v, hv, h2⟩ := ih st false d hd'
          exact ⟨v, by simp [hv], h2⟩
      · simp only [disrAux, Bool.not_true, Bool.false_and, Bool.true_and,
          decide_eq_true_eq, gt_iff_lt] at hd
        rw [if_neg (by simp), if_neg (by simpa using h90)] at hd
        obtain ⟨v, hv, h2⟩ := ih st true d hd
        exact ⟨v, by simp [hv], h2⟩

/-- Everything the segmenter emits from a lower-bounded sample run keeps
that lower bound on interval starts. -/
theorem disrAux_start_lb : ∀ (us : List (ℚ × ℚ)) (b : ℚ) (st : ℚ) (inD : Bool),
    (∀ u ∈ us, b ≤ u.1) → (inD = true → b ≤ st) →
    ∀ d ∈ disrAux us st inD, b ≤ d.1 := by
  intro us
  induction us with
  | nil => intro b st inD _ _ d hd; simp [disrAux] at hd
  | cons u tl ih =>
    intro b st inD h1 h2 d hd
    have htl : ∀ u ∈ tl, b ≤ u.1 := fun x hx => h1 x (by simp [hx])
    cases inD with
    | false =>
      by_cases h80 : u.2 < (80 : ℚ)
      · simp only [disrAux, Bool.not_false, Bool.true_and, decide_eq_true_eq,
          if_pos h80] at hd
        exact ih b u.1 true htl (fun _ => h1 u (by simp)) d hd
      · simp only [disrAux, Bool.not_false, Bool.true_and, Bool.false_and,
          decide_eq_true_eq, if_neg h80, if_false] at hd
        exact ih b st false htl (by simp) d hd
    | true =>
      by_cases h90 : (90 : ℚ) < u.2
      · simp only [disrAux, Bool.not_true, Bool.false_and, Bool.true_and,
          decide_eq_true_eq, gt_iff_lt] at hd
        rw [if_neg (by simp), if_pos (by simpa using h90)] at hd
        rcases List.mem_cons.mp hd with rfl | hd'
        · exact h2 rfl
        · exact ih b st false htl (by simp) d hd'
      · simp only [disrAux, Bool.not_true, Bool.false_and, Bool.true_and,
          decide_eq_true_eq, gt_iff_lt] at hd
        rw [if_neg (by simp), if_neg (by simpa using h90)] at hd
        exact ih b st true htl h2 d hd

/-- Well-formedness and chronological disjointness of the emitted
intervals, from any state whose pending start lower-bounds the remaining
positions. -/
theorem disrAux_sorted : ∀ (us : List (ℚ × ℚ)) (st : ℚ) (inD : Bool),
    List.Pairwise (fun a b : ℚ × ℚ => a.1 ≤ b.1) us →
    (inD = true → ∀ u ∈ us, st ≤ u.1) →
    (∀ d ∈ disrAux us st inD, d.1 ≤ d.2) ∧
      List.Chain' (fun a b : ℚ × ℚ => a.2 ≤ b.1) (disrAux us st inD) := by
  intro us
  induction us with
  | nil => intro st inD _ _; exact ⟨by intro d hd; simp [disrAux] at hd, by simp [disrAux]⟩
  | cons u tl ih =>
    intro st inD hpw hst
    have hhead : ∀ v ∈ tl, u.1 ≤ v.1 := (List.pairwise_cons.mp hpw).1
    have htl : List.Pairwise (fun a b : ℚ × ℚ => a.1 ≤ b.1) tl :=
      (List.pairwise_cons.mp hpw).2
    cases inD with
    | false =>
      by_cases h80 : u.2 < (80 : ℚ)
      · simp only [disrAux, Bool.not_false, Bool.true_and, decide_eq_true_eq, if_pos h80]
        exact ih u.1 true htl (fun _ => hhead)
      · simp only [disrAux, Bool.not_false, Bool.true_and, Bool.false_and,
          decide_eq_true_eq, if_neg h80, if_false]
        exact ih st false htl (by simp)
    | true =>
      have hst' : ∀ v ∈ tl, st ≤ v.1 := fun v hv => hst rfl v (by simp [hv])
      by_cases h90 : (90 : ℚ) < u.2
      · simp only [disrAux, Bool.not_true, Bool.false_and, Bool.true_and,
          decide_eq_true_eq, gt_iff_lt]
        rw [if_neg (by simp), if_pos (by simpa using h90)]
        obtain ⟨ihall, ihchain⟩ := ih st false htl (by simp)
        constructor
        · intro d hd
          rcases List.mem_cons.mp hd with rfl | hd'
          · exact hst rfl u (by simp)
          · exact ihall d hd'
        · rw [List.chain'_cons']
          refine ⟨?_, ihchain⟩
          intro b hb
          have hmem : b ∈ disrAux tl st false := by
            cases hh : (disrAux tl st false).head? with
            | none => rw [hh] at hb; simp at hb
            | some x =>
              rw [hh] at hb
              simp at hb
              subst hb
              exact List.mem_of_mem_head? hh
          exact disrAux_start_lb tl u.1 st false hhead (by simp) b hmem
      · simp only [disrAux, Bool.not_true, Bool.false_and, Bool.true_and,
          decide_eq_true_eq, gt_iff_lt]
        rw [if_neg (by simp), if_neg (by simpa using h90)]
        exact ih st true htl (fun _ => hst')

/-- C3: the hysteresis segmenter never opens on samples above 90 (a series
strictly above 90 yields no disruption), a strictly-sub-80 run followed by
a strictly-above-90 run yields exactly the one interval from the first
sub-80 position to the first above-90 position, and every emitted interval
is closed by an above-90 sample (no interval is left open at the end of
the stream). -/
theorem C3_disruption_hysteresis :
    (∀ us : List (ℚ × ℚ), (∀ u ∈ us, (90 : ℚ) < u.2) → disruptions_of us = []) ∧
    (∀ (x : ℚ × ℚ) (p' : List (ℚ × ℚ)) (y : ℚ × ℚ) (q' : List (ℚ × ℚ)),
      (∀ u ∈ x :: p', u.2 < (80 : ℚ)) → (∀ u ∈ y :: q', (90 : ℚ) < u.2) →
      disruptions_of ((x :: p') ++ y :: q') = [(x.1, y.1)]) ∧
    (∀ us : List (ℚ × ℚ), ∀ d ∈ disruptions_of us, ∃ u ∈ us, (90 : ℚ) < u.2 ∧ d.2 = u.1) := by
  refine ⟨?_, ?_, ?_⟩
  · intro us h
    exact disrAux_above90 us 0 h
  · intro x p' y q' hp hq
    have hx : x.2 < 80 := hp x (by simp)
    show disrAux (x :: (p' ++ y :: q')) 0 false = _
    simp only [disrAux, Bool.not_false, Bool.true_and, decide_eq_true_eq, if_pos hx]
    rw [disrAux_dip p' y q' x.1 (fun v hv => hp v (by simp [hv])) (hq y (by simp))]
    rw [disrAux_above90 q' x.1 (fun v hv => hq v (by simp [hv]))]
  · intro us d hd
    exact disrAux_closed us 0 false d hd

/-- Witness for C3: one dip below 80 recovering above 90. -/
theorem C3_witness :
    disruptions_of (((1 : ℚ), (70 : ℚ)) :: [] ++ ((2 : ℚ), (95 : ℚ)) :: []) = [(1, 2)] :=
  C3_disruption_hysteresis.2.1 (1, 70) [] (2, 95) []
    (by intro u hu; simp at hu; subst hu; norm_num)
    (by intro u hu; simp at hu; subst hu; norm_num)

/-- C9: on samples with non-decreasing positions every emitted interval
satisfies `start ≤ end`, and consecutive intervals are chronologically
disjoint (`end₁ ≤ start₂`). -/
theorem C9_intervals_wellformed (us : List (ℚ × ℚ))
    (h : List.Pairwise (fun a b : ℚ × ℚ => a.1 ≤ b.1) us) :
    (∀ d ∈ disruptions_of us, d.1 ≤ d.2) ∧
      List.Chain' (fun a b : ℚ × ℚ => a.2 ≤ b.1) (disruptions_of us) :=
  disrAux_sorted us 0 false h (by simp)

/-- Witness for C9 on a four-sample series with two disruptions. -/
theorem C9_witness :
    (∀ d ∈ disruptions_of [((1 : ℚ), (70 : ℚ)), (2, 95), (3, 60), (4, 99)], d.1 ≤ d.2) ∧
      List.Chain' (fun a b : ℚ × ℚ => a.2 ≤ b.1)
        (disruptions_of [((1 : ℚ), (70 : ℚ)), (2, 95), (3, 60), (4, 99)]) :=
  C9_intervals_wellformed [((1 : ℚ), (70 : ℚ)), (2, 95), (3, 60), (4, 99)]
    (by simp only [List.pairwise_cons, List.mem_cons, List.mem_singleton]
        refine ⟨?_, ?_, ?_, ?_⟩ <;> norm_num)

/-! ### Totality of the engine on well-formed logs -/

/-- Entries-level version of `calculate_uptime_rolling_eq`. -/
theorem calcEntries_eq (es : List Entry) (p : Int) :
    calcEntries es (some p) =
      some (if (effAcc es p).1 + (effAcc es p).2 = 0
        then CalcResult.invalid
        else CalcResult.valid
          (100 * ((effAcc es p).1 : ℚ) / (((effAcc es p).1 : ℚ) + ((effAcc es p).2 : ℚ)))
          (some (finalPeriod es p))) := by
  unfold calcEntries
  rw [rollAux_some_eq]
  simp

/-- A leading marker replaces the incoming period before anything else is
processed. -/
theorem calcEntries_marker (ms : Int) (es : List Entry) (per : Option Int) :
    calcEntries (Entry.marker ms :: es) per = calcEntries es (some ms) := rfl

/-- The final period stays positive when the initial period and all marker
values are positive. -/
theorem finalPeriod_pos : ∀ (es : List Entry) (p : Int), 0 < p →
    (∀ ms, Entry.marker ms ∈ es → 0 < ms) → 0 < finalPeriod es p := by
  intro es
  induction es with
  | nil => intro p hp _; exact hp
  | cons e rest ih =>
    intro p hp hm
    cases e with
    | marker ms => exact ih ms (hm ms (by simp)) (fun x hx => hm x (by simp [hx]))
    | success => exact ih p hp (fun x hx => hm x (by simp [hx]))
    | failed => exact ih p hp (fun x hx => hm x (by simp [hx]))
    | other => exact ih p hp (fun x hx => hm x (by simp [hx]))

/-- Indexwise monotonicity of timestamps from the pairwise hypothesis. -/
theorem pairwise_time_getD (log : List Line)
    (hm : List.Pairwise (fun a b : Line => a.time ≤ b.time) log) :
    ∀ i j, i ≤ j → j < log.length →
      (log.getD i dfl).time ≤ (log.getD j dfl).time := by
  intro i j hij hj
  rcases Nat.eq_or_lt_of_le hij with rfl | hlt
  · exact le_refl _
  · have hi : i < log.length := by omega
    rw [List.getD_eq_getElem log dfl hi, List.getD_eq_getElem log dfl hj]
    exact List.pairwise_iff_getElem.mp hm i j hi hj hlt

/-- The scan's stop index is monotone in the anchor index when timestamps
are non-decreasing. -/
theorem gpb_mono (log : List Line)
    (hm : List.Pairwise (fun a b : Line => a.time ≤ b.time) log)
    (period : Int) (i : Nat) (hi : i + 1 < log.length) :
    gpbAux log (log.getD i dfl).time period i ≤
      gpbAux log (log.getD (i + 1) dfl).time period (i + 1) := by
  by_contra hcon
  push_neg at hcon
  set e1 := gpbAux log (log.getD i dfl).time period i with he1
  set e2 := gpbAux log (log.getD (i + 1) dfl).time period (i + 1) with he2
  have h1 : e1 ≤ i := gpbAux_le log _ period i
  have hb : e1 = 0 ∨ period ≤ (log.getD i dfl).time - (log.getD e1 dfl).time :=
    gpbAux_boundary log _ period i
  have he1pos : 0 < e1 := by omega
  have hbound : period ≤ (log.getD i dfl).time - (log.getD e1 dfl).time := by
    rcases hb with h | h
    · omega
    · exact h
  have hspan : (log.getD (i + 1) dfl).time - (log.getD e1 dfl).time < period :=
    gpbAux_in_span log _ period (i + 1) e1 hcon (by omega)
  have hmono : (log.getD i dfl).time ≤ (log.getD (i + 1) dfl).time :=
    pairwise_time_getD log hm i (i + 1) (by omega) hi
  omega

/-- The record at any index of the slice's index range belongs to the
slice. -/
theorem slice_mem (log : List Line) (e j k : Nat) (h1 : e ≤ j) (h2 : j ≤ k)
    (h3 : k < log.length) :
    log.getD j dfl ∈ (log.drop e).take (k + 1 - e) := by
  have hj : j < log.length := by omega
  have hidx : ((log.drop e).take (k + 1 - e))[j - e]? = some (log.getD j dfl) := by
    rw [List.getElem?_take_of_lt (by omega), List.getElem?_drop]
    have h4 : e + (j - e) = j := by omega
    rw [h4, List.getElem?_eq_getElem hj, List.getD_eq_getElem log dfl hj]
  exact List.getElem?_mem hidx

/-- Head decomposition of the slice `log[e : k+1]`. -/
theorem window_decomp (log : List Line) (e k : Nat) (he : e ≤ k) (hk : k < log.length) :
    (log.drop e).take (k + 1 - e) =
      log.getD e dfl :: (log.drop (e + 1)).take (k - e) := by
  have he' : e < log.length := by omega
  rw [List.drop_eq_getElem_cons he']
  have h1 : k + 1 - e = (k - e) + 1 := by omega
  rw [h1, List.take_succ_cons, List.getD_eq_getElem log dfl he']

/-- `get_period_before` is the scan-determined slice (definitional). -/
theorem get_period_before_def (log : List Line) (k : Nat) (period : Int) :
    get_period_before log k period =
      (log.drop (gpbAux log (log.getD k dfl).time period k)).take
        (k + 1 - gpbAux log (log.getD k dfl).time period k) := rfl

/-- Lines of a window belong to the log. -/
theorem window_subset (log : List Line) (k : Nat) (period : Int) :
    ∀ l ∈ get_period_before log k period, l ∈ log := by
  intro l hl
  rw [get_period_before_def] at hl
  exact List.mem_of_mem_drop (List.mem_of_mem_take hl)

/-- Marker values appearing in a window's entries are positive when the
log's are. -/
theorem window_markers_pos (log : List Line)
    (hms : ∀ l ∈ log, ∀ m, l.entry = Entry.marker m → 0 < m) (k : Nat) (period : Int) :
    ∀ m, Entry.marker m ∈ (get_period_before log k period).map Line.entry → 0 < m := by
  intro m hmem
  rw [List.mem_map] at hmem
  obtain ⟨l, hl, he⟩ := hmem
  exact hms l (window_subset log k period l hl) m he

/-- An all-non-signal window at an unskipped index `k` sets up the `None`
period invariant for index `k + 1`. -/
theorem goodper_next (log : List Line) (now : ℚ)
    (hw : ∀ l ∈ log, l.entry ≠ Entry.other) (k : Nat) (hk : k < log.length)
    (hnosig : ∀ x ∈ (get_period_before log k 60).map Line.entry, x.isSignal = false)
    (hnoskip : ¬((((log.getD k dfl).time : ℚ) - now) / 3600 < -24)) :
    GoodPer log now (k + 1) none := by
  refine ⟨by simp, fun _ => ⟨k, rfl, hk, hnosig, ?_, hnoskip⟩⟩
  have hkmem : log.getD k dfl ∈ get_period_before log k 60 := by
    rw [get_period_before_def]
    exact slice_mem log _ k k (gpbAux_le log _ 60 k) (le_refl k) hk
  have hksig : (log.getD k dfl).entry.isSignal = false :=
    hnosig _ (List.mem_map_of_mem Line.entry hkmem)
  have hkinlog : log.getD k dfl ∈ log := by
    rw [List.getD_eq_getElem log dfl hk]
    exact List.getElem_mem hk
  cases hE : (log.getD k dfl).entry with
  | marker m' => exact ⟨m', rfl⟩
  | success => rw [hE] at hksig; simp [Entry.isSignal] at hksig
  | failed => rw [hE] at hksig; simp [Entry.isSignal] at hksig
  | other => exact absurd hE (hw _ hkinlog)

/-- Totality of the generator pass on consecutive indices: with
non-decreasing timestamps, no unrecognized lines and positive marker
values, the walk starting from a `GoodPer` period state never raises. -/
theorem genAux_total (log : List Line) (now : ℚ) (give : Bool)
    (hm : List.Pairwise (fun a b : Line => a.time ≤ b.time) log)
    (hw : ∀ l ∈ log, l.entry ≠ Entry.other)
    (hms : ∀ l ∈ log, ∀ m, l.entry = Entry.marker m → 0 < m) :
    ∀ (m k : Nat) (per : Option Int), k + m ≤ log.length → GoodPer log now k per →
      (genAux log now give (List.range' k m) per).isSome := by
  intro m
  induction m with
  | zero =>
    intro k per _ _
    rw [show List.range' k 0 = [] from rfl]
    simp [genAux]
  | succ n ih =>
    intro k per hkm hgood
    have hk : k < log.length := by omega
    rw [show List.range' k (n + 1) = k :: List.range' (k + 1) n from rfl]
    simp only [genAux]
    by_cases hskip : (((log.getD k dfl).time : ℚ) - now) / 3600 < -24
    · rw [if_pos hskip]
      cases per with
      | some p => exact ih (k + 1) (some p) (by omega) ⟨hgood.1, by simp⟩
      | none =>
        exfalso
        obtain ⟨k0, hkk0, hk0len, _, _, hnoskip⟩ := hgood.2 rfl
        apply hnoskip
        have ht : (log.getD k0 dfl).time ≤ (log.getD k dfl).time :=
          pairwise_time_getD log hm k0 k (by omega) hk
        have htq : ((log.getD k0 dfl).time : ℚ) ≤ ((log.getD k dfl).time : ℚ) := by
          exact_mod_cast ht
        have hle : (((log.getD k0 dfl).time : ℚ) - now) / 3600 ≤
            (((log.getD k dfl).time : ℚ) - now) / 3600 := by
          gcongr
        linarith
    · rw [if_neg hskip]
      cases per with
      | some p =>
        have hp : 0 < p := hgood.1 p rfl
        have hmw := window_markers_pos log hms k 60
        rw [calculate_uptime_rolling_eq]
        by_cases h0 : (effAcc ((get_period_before log k 60).map Line.entry) p).1 +
            (effAcc ((get_period_before log k 60).map Line.entry) p).2 = 0
        · rw [if_pos h0]
          exact ih (k + 1) none (by omega)
            (goodper_next log now hw k hk
              ((effAcc_nonneg _ p hp hmw).2.2.mp h0) hskip)
        · rw [if_neg h0]
          rw [Option.isSome_map']
          refine ih (k + 1) (some (finalPeriod _ p)) (by omega) ⟨?_, by simp⟩
          intro q hq
          injection hq with hq'
          rw [← hq']
          exact finalPeriod_pos _ p hp hmw
      | none =>
        obtain ⟨k0, hkk0, hk0len, hnos, ⟨ms0, hms0⟩, hnoskip⟩ := hgood.2 rfl
        subst hkk0
        set e := gpbAux log (log.getD (k0 + 1) dfl).time 60 (k0 + 1) with he_def
        have he_le : e ≤ k0 := by
          rw [he_def]
          exact gpbAux_succ_le log 60 (by norm_num) k0
        have he_ge : gpbAux log (log.getD k0 dfl).time 60 k0 ≤ e := by
          rw [he_def]
          exact gpb_mono log hm 60 k0 hk
        have hemem : log.getD e dfl ∈ get_period_before log k0 60 := by
          rw [get_period_before_def]
          exact slice_mem log _ e k0 he_ge he_le hk0len
        have hesig : (log.getD e dfl).entry.isSignal = false :=
          hnos _ (List.mem_map_of_mem Line.entry hemem)
        have heinlog : log.getD e dfl ∈ log := by
          rw [List.getD_eq_getElem log dfl (show e < log.length by omega)]
          exact List.getElem_mem _
        obtain ⟨msE, hmsE⟩ : ∃ m', (log.getD e dfl).entry = Entry.marker m' := by
          cases hE : (log.getD e dfl).entry with
          | marker m' => exact ⟨m', rfl⟩
          | success => rw [hE] at hesig; simp [Entry.isSignal] at hesig
          | failed => rw [hE] at hesig; simp [Entry.isSignal] at hesig
          | other => exact absurd hE (hw _ heinlog)
        have hmsEpos : 0 < msE := hms _ heinlog msE hmsE
        have hdec : get_period_before log (k0 + 1) 60 =
            log.getD e dfl :: (log.drop (e + 1)).take (k0 + 1 - e) := by
          rw [get_period_before_def, ← he_def]
          exact window_decomp log e (k0 + 1) (by omega) hk
        have hmark_tl : ∀ m', Entry.marker m' ∈
            ((log.drop (e + 1)).take (k0 + 1 - e)).map Line.entry → 0 < m' := by
          intro m' hmem
          rw [List.mem_map] at hmem
          obtain ⟨l, hl, hle2⟩ := hmem
          exact hms l (List.mem_of_mem_drop (List.mem_of_mem_take hl)) m' hle2
        have hcalc : calculate_uptime_rolling (get_period_before log (k0 + 1) 60) none =
            calcEntries (((log.drop (e + 1)).take (k0 + 1 - e)).map Line.entry)
              (some msE) := by
          show calcEntries ((get_period_before log (k0 + 1) 60).map Line.entry) none = _
          rw [hdec, List.map_cons, hmsE, calcEntries_marker]
        rw [hcalc, calcEntries_eq]
        by_cases h0 : (effAcc (((log.drop (e + 1)).take (k0 + 1 - e)).map Line.entry) msE).1 +
            (effAcc (((log.drop (e + 1)).take (k0 + 1 - e)).map Line.entry) msE).2 = 0
        · rw [if_pos h0]
          refine ih (k0 + 2) none (by omega) (goodper_next log now hw (k0 + 1) hk ?_ hskip)
          intro x hx
          rw [hdec, List.map_cons, List.mem_cons] at hx
          rcases hx with rfl | hx'
          · rw [hmsE]
            rfl
          · exact (effAcc_nonneg _ msE hmsEpos hmark_tl).2.2.mp h0 x hx'
        · rw [if_neg h0]
          have hrec := ih (k0 + 2)
            (some (finalPeriod (((log.drop (e + 1)).take (k0 + 1 - e)).map Line.entry) msE))
            (by omega)
            ⟨by intro q hq
                injection hq with hq'
                rw [← hq']
                exact finalPeriod_pos _ msE hmsEpos hmark_tl,
              by simp⟩
          simpa only [Option.isSome_map'] using hrec

/-- A line matching none of the three suffixes is classified `other`
without raising. -/
theorem classify_line_other (s : PyStr)
    (h1 : pyEndsWith (pyStrip s) ['m', 's'] = false)
    (h2 : pyEndsWith (pyStrip s) ['s', 'u', 'c', 'c', 'e', 's', 's'] = false)
    (h3 : pyEndsWith (pyStrip s) ['F', 'A', 'I', 'L', 'E', 'D'] = false) :
    classify_line s = some Entry.other := by
  simp [classify_line, h1, h2, h3]

/-- An `other` entry anywhere in the walk contributes nothing. -/
theorem rollAux_other_middle : ∀ (es₁ es₂ : List Entry) (u d : Int) (p : Option Int),
    rollAux (es₁ ++ Entry.other :: es₂) u d p = rollAux (es₁ ++ es₂) u d p := by
  intro es₁
  induction es₁ with
  | nil => intro es₂ u d p; rfl
  | cons e rest ih =>
    intro es₂ u d p
    cases e with
    | marker ms => simpa [rollAux] using ih es₂ u d (some ms)
    | success =>
      cases p with
      | none => rfl
      | some q => simpa [rollAux] using ih es₂ (u + q) d (some q)
    | failed =>
      cases p with
      | none => rfl
      | some q => simpa [rollAux] using ih es₂ u (d + q) (some q)
    | other => simpa [rollAux] using ih es₂ u d p

/-- Classification distributes over concatenation. -/
theorem classifyAll_append : ∀ (xs ys : List PyStr),
    classifyAll (xs ++ ys) =
      (classifyAll xs).bind (fun es => (classifyAll ys).map (es ++ ·)) := by
  intro xs
  induction xs with
  | nil =>
    intro ys
    simp [classifyAll]
  | cons x rest ih =>
    intro ys
    rw [List.cons_append]
    cases hx : classify_line x with
    | none => simp [classifyAll, hx]
    | some e =>
      cases hr : classifyAll rest with
      | none => simp [classifyAll, hx, ih ys, hr]
      | some es =>
        cases hy : classifyAll ys with
        | none => simp [classifyAll, hx, ih ys, hr, hy]
        | some es' => simp [classifyAll, hx, ih ys, hr, hy]

/-- A line classified `other` in the middle of a window does not change the
result of `calculate_uptime_rolling` on raw lines. -/
theorem sCalculate_ignores_other (pre post : List PyStr) (bad : PyStr) (p : Option Int)
    (hb : classify_line bad = some Entry.other) :
    sCalculate_uptime_rolling (pre ++ bad :: post) p =
      sCalculate_uptime_rolling (pre ++ post) p := by
  unfold sCalculate_uptime_rolling
  rw [classifyAll_append, classifyAll_append]
  have hcons : classifyAll (bad :: post) = (classifyAll post).map (Entry.other :: ·) := by
    show (match classify_line bad with
      | none => none
      | some e => (classifyAll post).map (e :: ·)) = _
    rw [hb]
  rw [hcons]
  cases hpre : classifyAll pre with
  | none => rfl
  | some es =>
    cases hpost : classifyAll post with
    | none => rfl
    | some es' =>
      show calcEntries (es ++ Entry.other :: es') p = calcEntries (es ++ es') p
      unfold calcEntries
      rw [rollAux_other_middle]

/-- `calculate_uptime_rolling` never raises when handed an integer
period. -/
theorem calculate_uptime_rolling_total (sec : List Line) (p : Int) :
    (calculate_uptime_rolling sec (some p)).isSome := by
  rw [calculate_uptime_rolling_eq]
  rfl

/-- The rolling series generator never raises on a well-formed log:
non-decreasing timestamps, no unrecognized lines, positive marker
values. -/
theorem calculate_log_rolling_uptimes_total (log : List Line) (now : ℚ) (give : Bool)
    (hm : List.Pairwise (fun a b : Line => a.time ≤ b.time) log)
    (hw : ∀ l ∈ log, l.entry ≠ Entry.other)
    (hms : ∀ l ∈ log, ∀ m, l.entry = Entry.marker m → 0 < m) :
    (calculate_log_rolling_uptimes log now give).isSome := by
  unfold calculate_log_rolling_uptimes
  rw [List.range_eq_range']
  exact genAux_total log now give hm hw hms log.length 0 (some 2000) (by omega)
    ⟨by intro q hq; injection hq with hq'; omega, by simp⟩

/-- The disruption segmenter never raises on a well-formed log. -/
theorem calculate_disruptions_total (log : List Line) (now : ℚ)
    (hm : List.Pairwise (fun a b : Line => a.time ≤ b.time) log)
    (hw : ∀ l ∈ log, l.entry ≠ Entry.other)
    (hms : ∀ l ∈ log, ∀ m, l.entry = Entry.marker m → 0 < m) :
    (calculate_disruptions log now).isSome := by
  unfold calculate_disruptions
  rw [Option.isSome_map']
  exact calculate_log_rolling_uptimes_total log now false hm hw hms

/-- C8 (amended): a line with an unrecognized suffix is classified `other`
and its presence anywhere in a window leaves `calculate_uptime_rolling`
unchanged (fail-soft classification); and on well-formed numeric logs —
parsed lines with non-decreasing timestamps, no unrecognized lines and
positive marker values — no component of the engine raises.  (A line with
a missing bracketed timestamp, however, makes the rolling generator raise:
see the counterexample.) -/
theorem C8_failsoft_and_totality :
    (∀ s : PyStr, pyEndsWith (pyStrip s) ['m', 's'] = false →
      pyEndsWith (pyStrip s) ['s', 'u', 'c', 'c', 'e', 's', 's'] = false →
      pyEndsWith (pyStrip s) ['F', 'A', 'I', 'L', 'E', 'D'] = false →
      classify_line s = some Entry.other) ∧
    (∀ (pre post : List PyStr) (bad : PyStr) (p : Option Int),
      classify_line bad = some Entry.other →
      sCalculate_uptime_rolling (pre ++ bad :: post) p =
        sCalculate_uptime_rolling (pre ++ post) p) ∧
    (∀ (log : List Line) (now : ℚ) (give : Bool) (p : Int),
      List.Pairwise (fun a b : Line => a.time ≤ b.time) log →
      (∀ l ∈ log, l.entry ≠ Entry.other) →
      (∀ l ∈ log, ∀ m, l.entry = Entry.marker m → 0 < m) →
      (calculate_uptime_rolling log (some p)).isSome ∧
      (calculate_log_rolling_uptimes log now give).isSome ∧
      (calculate_disruptions log now).isSome) := by
  refine ⟨classify_line_other, sCalculate_ignores_other, ?_⟩
  intro log now give p hm hw hms
  exact ⟨calculate_uptime_rolling_total log p,
    calculate_log_rolling_uptimes_total log now give hm hw hms,
    calculate_disruptions_total log now hm hw hms⟩

/-- Witness for C8 on a concrete one-marker-one-success log. -/
theorem C8_witness :
    (calculate_uptime_rolling [⟨0, Entry.marker 500⟩, ⟨1, Entry.success⟩]
      (some 2000)).isSome ∧
    (calculate_log_rolling_uptimes [⟨0, Entry.marker 500⟩, ⟨1, Entry.success⟩]
      (1 : ℚ) false).isSome ∧
    (calculate_disruptions [⟨0, Entry.marker 500⟩, ⟨1, Entry.success⟩] (1 : ℚ)).isSome :=
  C8_failsoft_and_totality.2.2 [⟨0, Entry.marker 500⟩, ⟨1, Entry.success⟩] 1 false 2000
    (by simp)
    (by decide)
    (by intro l hl m hm
        fin_cases hl <;> simp_all
        all_goals omega)

/-- Counterexample to C8 as frozen: the malformed line `"x"` (no bracketed
timestamp) makes the rolling generator raise — processing of the following
well-formed success line is lost — whereas the log without the malformed
line yields a sample. -/
theorem C8_counterexample :
    sCalculate_log_rolling_uptimes
      [['x'], ['[', '1', ']', ' ', 's', 'u', 'c', 'c', 'e', 's', 's']] 1 false = none ∧
    sCalculate_log_rolling_uptimes
      [['[', '1', ']', ' ', 's', 'u', 'c', 'c', 'e', 's', 's']] 1 false = some [(1, 100)] ∧
    get_log_entry_time ['x'] = none := by
  refine ⟨?_, ?_, by decide⟩
  · norm_num +decide [sCalculate_log_rolling_uptimes, sGenAux, sCalculate_uptime_rolling,
      calcEntries, rollAux, sGet_period_before, sGpbAux, get_log_entry_time, classify_line,
      pySplitWS, pyStrip, pyEndsWith, pySplitSpace, pyInt?, digits?, List.range_succ,
      splitChars, isWS, classifyAll, toNat_digit_zero, toNat_digit_one]
  · norm_num +decide [sCalculate_log_rolling_uptimes, sGenAux, sCalculate_uptime_rolling,
      calcEntries, rollAux, sGet_period_before, sGpbAux, get_log_entry_time, classify_line,
      pySplitWS, pyStrip, pyEndsWith, pySplitSpace, pyInt?, digits?, List.range_succ,
      splitChars, isWS, classifyAll, toNat_digit_zero, toNat_digit_one]

end Uptime
